import Mathlib

/-!
A verification development for the pg_anonymous rule-template engine and
dump-stream transducer (src/include/pg_anonymous/Rules.hpp and
src/src/pg_anonymous/DataProcessor.cpp).

The C++ sources are shallowly embedded below.  Templates and function
definitions are modelled as `List Char` (the byte/character content of the
`std::string`s the code manipulates); machine integers are `Nat`/`Int` with
explicit `% 2^32` where the C++ relies on unsigned wrap-around; C++
exceptions are modelled with `Except` (a thrown exception is `.error`,
propagated by the caller exactly where the C++ has no `try`/`catch`).

Facilities of the C++ standard library that are external to the repository
(the `std::regex` engine and the `std::mt19937` random source) are modelled
as an abstract environment `Env` of oracle functions; everything the
repository itself implements is translated concretely.
-/

namespace PgAnonymous

/-! ## Character and string utilities (RuleFactory::trim, std::stoi, splitting) -/

/-- Characters treated as whitespace by C++ `std::isspace` in the default
locale: space, \t, \n, vertical tab (11), form feed (12), \r. -/
def isCppSpace (c : Char) : Bool :=
  c == ' ' || c == '\t' || c == '\n' || c == '\r' || c.toNat == 11 || c.toNat == 12

/-- Characters trimmed by `RuleFactory::trim` / `ConditionalRule::trim`
(`find_first_not_of(" \t")` / `find_last_not_of(" \t")`): space and tab only. -/
def isTrimWs (c : Char) : Bool :=
  c == ' ' || c == '\t'

/-- `RuleFactory::trim` (identical to `ConditionalRule::trim`): strip leading
and trailing spaces/tabs; an all-whitespace string becomes empty. -/
def trimChars (s : List Char) : List Char :=
  ((s.dropWhile isTrimWs).reverse.dropWhile isTrimWs).reverse

/-- Index of the first element satisfying `p` (models `std::find` /
`std::string::find`). -/
def firstIdx {α : Type} (p : α → Bool) : List α → Option Nat
  | [] => none
  | c :: rest => if p c then some 0 else (firstIdx p rest).map (· + 1)

/-- Index of the last occurrence of `c` (models `std::string::find_last_of`
with a single search character). -/
def findLastIdx (s : List Char) (c : Char) : Option Nat :=
  match firstIdx (fun x => x == c) s.reverse with
  | some k => some (s.length - 1 - k)
  | none => none

/-- Splitting with `std::getline(ss, token, delim)` in a loop: no token for
the empty string, and a trailing delimiter does not produce a trailing empty
token (the final `getline` hits end-of-stream and fails). -/
def splitGetline (delim : Char) : List Char → List String
  | [] => []
  | c0 :: rest =>
    let seg := (c0 :: rest).takeWhile (fun c => !(c == delim))
    match h : (c0 :: rest).drop seg.length with
    | [] => [String.mk seg]
    | _ :: r => String.mk seg :: splitGetline delim r
termination_by s => s.length
decreasing_by
  have h2 := congrArg List.length h
  rw [List.length_drop] at h2
  simp only [List.length_cons] at h2 ⊢
  omega

/-- `std::stoi`: skip C++ whitespace, optional sign, then decimal digits;
throws (`.error`) when no digits are present or the value is outside the
range of `int`. -/
def stoiM (s : List Char) : Except Unit Int :=
  let s1 := s.dropWhile isCppSpace
  let (sign, s2) : Int × List Char :=
    match s1 with
    | '-' :: r => (-1, r)
    | '+' :: r => (1, r)
    | _ => (1, s1)
  let digits := s2.takeWhile (fun c => c.isDigit)
  if digits = [] then .error ()
  else
    let mag : Nat := digits.foldl (fun a c => a * 10 + (c.toNat - '0'.toNat)) 0
    let v : Int := sign * (mag : Int)
    if v < -2147483648 ∨ 2147483647 < v then .error () else .ok v

/-- UTF-8 encoding of one character, as the byte values a C++ `std::string`
holding the same text would contain. -/
def charUtf8 (c : Char) : List Nat :=
  let n := c.toNat
  if n < 0x80 then [n]
  else if n < 0x800 then
    [0xC0 ||| (n >>> 6), 0x80 ||| (n &&& 0x3F)]
  else if n < 0x10000 then
    [0xE0 ||| (n >>> 12), 0x80 ||| ((n >>> 6) &&& 0x3F), 0x80 ||| (n &&& 0x3F)]
  else
    [0xF0 ||| (n >>> 18), 0x80 ||| ((n >>> 12) &&& 0x3F),
     0x80 ||| ((n >>> 6) &&& 0x3F), 0x80 ||| (n &&& 0x3F)]

/-- The byte sequence of a string, as iterated by `for (char c : s)` over a
C++ `std::string` (each byte cast to `unsigned char`). -/
def strBytes (s : String) : List Nat :=
  (s.data.map charUtf8).flatten

/-! ## The rule tree (Rules.hpp concrete IRule implementations) -/

/-- The compiled rule tree.  One constructor per concrete `IRule` subclass in
Rules.hpp; `RegexRule` stores the pattern text of its compiled `std::regex`. -/
inductive Rule : Type
  | NoneRule : Rule
  | StaticTextRule (text : String) : Rule
  | RandomIntRule (min max : Int) : Rule
  | PickRule (options : List String) : Rule
  | RegexRule (pattern : String) (replacement_rule : Rule) : Rule
  | HashRule (salt : Nat) : Rule
  | MatchesRule (target_col : String) (pattern : String) : Rule
  | ConditionalRule (condition_check_rule : Rule) (op : String) (target_val : String)
      (true_rule : Rule) (false_rule : Rule) : Rule
  | CompositeRule (sub_rules : List Rule) : Rule

/-- `RowContext`: column headers plus the row's original cell values. -/
structure RowContext where
  headers : List String
  row_values : List String

/-- `RowContext::get_column_value`: first header equal to `col_name`; its cell
if the index is within the row values, otherwise the empty string; empty
string as well when the name is absent. -/
def RowContext.get_column_value (ctx : RowContext) (col_name : String) : String :=
  match firstIdx (fun x => x == col_name) ctx.headers with
  | some index =>
    match ctx.row_values[index]? with
    | some v => v
    | none => ""
  | none => ""

/-- Abstract model of the external facilities the code uses: the
`std::regex` engine and the random sources.  `compileOk p` says whether
`std::regex(p)` constructs without throwing `std::regex_error`; `rmatch v p`
is `std::regex_match(v, regex(p))` (full match); `rreplace v p fmt` is
`std::regex_replace(v, regex(p), fmt)`; `randInt a b` is one draw of
`uniform_int_distribution<int>(a,b)` and `pickIdx n` one draw of
`uniform_int_distribution<size_t>(0,n-1)` (any value; the model reduces it
into range where the C++ guarantees range).  `copyMatch` and `endMatch`
model `regex_match` against the fixed `copy_pattern` (returning the table
name capture and the optional raw column-list capture) and `end_pattern`. -/
structure Env where
  compileOk : String → Bool
  rmatch : String → String → Bool
  rreplace : String → String → String → String
  randInt : Int → Int → Int
  pickIdx : Nat → Nat
  copyMatch : String → Option (String × Option String)
  endMatch : String → Bool

/-- One FNV-1a style mixing pass of `HashRule::apply`:
`hash ^= byte; hash *= 16777619u;` on a `uint32_t`. -/
def fnvMix (h : Nat) (bytes : List Nat) : Nat :=
  bytes.foldl (fun acc b => ((acc ^^^ b) * 16777619) % 4294967296) h

/-- `HashRule::apply`: offset basis 2166136261, mix the decimal rendering of
the salt, then the value's bytes, mask with 0x7FFFFFFF, render in decimal. -/
def hashDigest (salt : Nat) (original_value : String) : String :=
  let h0 : Nat := 2166136261
  let h1 := fnvMix h0 (strBytes (toString salt))
  let h2 := fnvMix h1 (strBytes original_value)
  toString (h2 &&& 0x7FFFFFFF)

mutual

/-- `IRule::apply` dispatch over the concrete rule classes of Rules.hpp. -/
def applyRule (env : Env) : Rule → String → RowContext → String
  | .NoneRule, original_value, _ => original_value
  | .StaticTextRule t, _, _ => t
  | .RandomIntRule mn mx, _, _ => toString (env.randInt mn mx)
  | .PickRule opts, _, _ =>
    -- PickRule::apply: empty list yields "", otherwise one uniform draw.
    if opts.isEmpty then "" else opts.getD (env.pickIdx opts.length % opts.length) ""
  | .RegexRule pat repl, original_value, ctx =>
    -- RegexRule::apply: evaluate the replacement subtree first, then
    -- regex_replace on the original value.
    env.rreplace original_value pat (applyRule env repl original_value ctx)
  | .HashRule salt, original_value, _ => hashDigest salt original_value
  | .MatchesRule col pat, _, ctx =>
    if env.rmatch (ctx.get_column_value col) pat then "true" else "false"
  | .ConditionalRule condR op tv tR fR, original_value, ctx =>
    let actual := applyRule env condR original_value ctx
    let matched : Bool :=
      if op = "EQ" then actual == tv
      else if op = "NEQ" then actual != tv
      else if op = "IN" then
        (splitGetline ',' tv.data).any (fun arg => String.mk (trimChars arg.data) == actual)
      else false
    if matched then applyRule env tR original_value ctx
    else applyRule env fR original_value ctx
  | .CompositeRule subs, original_value, ctx =>
    String.join (applyRuleList env subs original_value ctx)

/-- `CompositeRule::apply` loop: concatenate sub-rule outputs in order. -/
def applyRuleList (env : Env) : List Rule → String → RowContext → List String
  | [], _, _ => []
  | r :: rs, original_value, ctx =>
    applyRule env r original_value ctx :: applyRuleList env rs original_value ctx

end

/-! ## RuleFactory: template parsing -/

/-- The scan of `parse_template` for the two-character start token `\x7b\x7b`:
returns the text before the first start token and the text after it, or
`none` when no start token occurs (the final single character cannot start a
token, matching the `i + 1 < len` guard). -/
def splitTag : List Char → Option (List Char × List Char)
  | [] => none
  | [_] => none
  | c1 :: c2 :: rest =>
    if c1 = '{' ∧ c2 = '{' then some ([], rest)
    else
      match splitTag (c2 :: rest) with
      | some (pre, r) => some (c1 :: pre, r)
      | none => none

/-- The inner depth-counting scan of `parse_template`: starting from `depth`,
each `\x7b` increments and each `\x7d` decrements; when the depth reaches
zero the scan stops.  Returns the characters scanned strictly before the
closing character and the characters after it (`i = j + 1`), or `none` when
the input ends first (unmatched braces). -/
def scanClose : List Char → Int → Option (List Char × List Char)
  | [], _ => none
  | c :: rest, depth =>
    let d2 : Int := if c == '{' then depth + 1 else if c == '}' then depth - 1 else depth
    if d2 = 0 then some ([], rest)
    else
      match scanClose rest d2 with
      | some (content, after) => some (c :: content, after)
      | none => none

/-- Loop body of `RuleFactory::smart_split_args`: `current` holds the
accumulated characters of the pending argument in reverse.  The nesting
counter is updated first; a comma at nesting zero closes the pending
argument (trimmed); the final pending argument is always pushed. -/
def smartSplitAux : List Char → Int → List Char → List (List Char)
  | [], _, current => [trimChars current.reverse]
  | c :: rest, nesting, current =>
    let n2 : Int :=
      if c == '{' || c == '(' then nesting + 1
      else if c == '}' || c == ')' then nesting - 1
      else nesting
    if c == ',' ∧ n2 = 0 then trimChars current.reverse :: smartSplitAux rest n2 []
    else smartSplitAux rest n2 (c :: current)

/-- `RuleFactory::smart_split_args`. -/
def smartSplitArgs (s : List Char) : List (List Char) :=
  smartSplitAux s 0 []

/-- Name/argument-text extraction at the top of `create_func_rule`: the name
is the text before the first `(` (the whole definition when there is none)
with all `isspace` characters removed; the argument text sits between the
first `(` and the last `)` provided the latter exists and comes later. -/
def extractNameArgsStr (func_def : List Char) : List Char × List Char :=
  match firstIdx (fun c => c == '(') func_def with
  | none => ((func_def.filter fun c => !(isCppSpace c)), [])
  | some paren_start =>
    let name := (func_def.take paren_start).filter fun c => !(isCppSpace c)
    match findLastIdx func_def ')' with
    | some paren_end =>
      if paren_start < paren_end then
        (name, (func_def.drop (paren_start + 1)).take (paren_end - paren_start - 1))
      else (name, [])
    | none => (name, [])

/-- The (whitespace-stripped) function name of a function definition. -/
def funcName (func_def : List Char) : List Char :=
  (extractNameArgsStr func_def).1

/-- The split argument list of a function definition. -/
def funcArgs (func_def : List Char) : List (List Char) :=
  smartSplitArgs (extractNameArgsStr func_def).2

/-- Salt derivation in the HASH branch of `create_func_rule`:
`salt = salt * 31 + (unsigned char)c` on an `unsigned int`. -/
def saltOf (arg : List Char) : Nat :=
  (strBytes (String.mk arg)).foldl (fun salt b => (salt * 31 + b) % 4294967296) 0

/-! Termination facts for the mutual recursion of `parse_template` and
`create_func_rule` (each recursive call consumes a strictly shorter string). -/

theorem trimChars_length_le (s : List Char) : (trimChars s).length ≤ s.length := by
  rw [trimChars]
  have h1 := (List.dropWhile_suffix (l := (s.dropWhile isTrimWs).reverse)
    isTrimWs).length_le
  have h2 := (List.dropWhile_suffix (l := s) isTrimWs).length_le
  simp at h1 ⊢
  omega

theorem splitTag_length : ∀ {s pre rest : List Char}, splitTag s = some (pre, rest) →
    pre.length + 2 + rest.length = s.length := by
  intro s
  induction s with
  | nil => intro pre rest h; simp [splitTag] at h
  | cons c1 cs ih =>
    intro pre rest h
    cases cs with
    | nil => simp [splitTag] at h
    | cons c2 r =>
      rw [splitTag] at h
      split at h
      · cases h; simp; omega
      · cases hx : splitTag (c2 :: r) with
        | none => rw [hx] at h; cases h
        | some pr =>
          obtain ⟨p2, r2⟩ := pr
          rw [hx] at h
          cases h
          have := ih hx
          simp at this ⊢
          omega

theorem scanClose_length : ∀ {s : List Char} {d : Int} {content after : List Char},
    scanClose s d = some (content, after) →
    content.length + 1 + after.length = s.length := by
  intro s
  induction s with
  | nil => intro d content after h; simp [scanClose] at h
  | cons c cs ih =>
    intro d content after h
    simp only [scanClose] at h
    generalize (if c == '{' then d + 1 else if c == '}' then d - 1 else d) = d2 at h
    split at h
    · cases h; simp; omega
    · cases hx : scanClose cs d2 with
      | none => rw [hx] at h; cases h
      | some pr =>
        obtain ⟨ct, af⟩ := pr
        rw [hx] at h
        cases h
        have := ih hx
        simp at this ⊢
        omega

theorem mem_smartSplitAux_length {a : List Char} :
    ∀ (s : List Char) (n : Int) (current : List Char),
      a ∈ smartSplitAux s n current → a.length ≤ s.length + current.length := by
  intro s
  induction s with
  | nil =>
    intro n current h
    simp only [smartSplitAux, List.mem_singleton] at h
    subst h
    have := trimChars_length_le current.reverse
    simp at this ⊢
    omega
  | cons c cs ih =>
    intro n current h
    simp only [smartSplitAux] at h
    generalize (if c == '{' || c == '(' then n + 1
      else if c == '}' || c == ')' then n - 1 else n) = n2 at h
    split at h
    · rcases List.mem_cons.mp h with h1 | h1
      · subst h1
        have := trimChars_length_le current.reverse
        simp at this ⊢
        omega
      · have := ih _ _ h1
        simp at this ⊢
        omega
    · have := ih _ _ h
      simp at this ⊢
      omega

theorem mem_smartSplitArgs_length {s a : List Char} (h : a ∈ smartSplitArgs s) :
    a.length ≤ s.length := by
  simpa using mem_smartSplitAux_length s 0 [] h

theorem firstIdx_lt_length {α : Type} {p : α → Bool} :
    ∀ {l : List α} {i : Nat}, firstIdx p l = some i → i < l.length := by
  intro l
  induction l with
  | nil => intro i h; simp [firstIdx] at h
  | cons c cs ih =>
    intro i h
    rw [firstIdx] at h
    split at h
    · cases h; simp
    · cases hx : firstIdx p cs with
      | none => rw [hx] at h; cases h
      | some j =>
        rw [hx] at h
        cases h
        have := ih hx
        simp
        omega

theorem findLastIdx_lt_length {s : List Char} {c : Char} {q : Nat}
    (h : findLastIdx s c = some q) : q < s.length := by
  rw [findLastIdx] at h
  split at h
  · rename_i k hk
    cases h
    have := firstIdx_lt_length hk
    simp at this
    omega
  · cases h

theorem extractArgsStr_length (d : List Char) :
    (extractNameArgsStr d).2.length + 2 ≤ d.length ∨ (extractNameArgsStr d).2 = [] := by
  rw [extractNameArgsStr]
  split
  · right; rfl
  · rename_i p hp
    split
    · rename_i q hq
      split
      · left
        have hq2 := findLastIdx_lt_length hq
        simp
        have h1 : ((d.drop (p + 1)).take (q - p - 1)).length ≤ q - p - 1 := by
          simp
        omega
      · right; rfl
    · right; rfl

theorem funcName_nil_of_nil : funcName ([] : List Char) = [] := by
  rfl

theorem length_lt_of_mem_funcArgs {d a : List Char} (hname : funcName d ≠ [])
    (ha : a ∈ funcArgs d) : a.length < d.length := by
  have hd : d ≠ [] := by
    intro h; subst h; exact hname funcName_nil_of_nil
  have hlen := mem_smartSplitArgs_length ha
  rcases extractArgsStr_length d with h | h
  · omega
  · rw [funcArgs, h] at ha
    simp [smartSplitArgs, smartSplitAux, trimChars] at ha
    subst ha
    simp
    exact List.length_pos.mpr hd

mutual

/-- `RuleFactory::create_func_rule`.  The C++ falls through to
`return StaticTextRule("")` (after a logged warning) whenever no dispatch
arm returns; the try/catch around `stoi` in the RAND arm and around the
`MatchesRule` construction likewise end up at that fall-through, so those
paths are `.ok (.StaticTextRule "")` here.  The REGEX arm constructs a
`std::regex` with no surrounding try/catch: a failing compile throws, which
this model renders as `.error pattern`. -/
def createFuncRule (env : Env) (func_def : List Char) : Except String Rule :=
  if funcName func_def = "NONE".data then
    .ok .NoneRule
  else if funcName func_def = "RAND".data ∧ (funcArgs func_def).length = 2 then
    match stoiM ((funcArgs func_def).getD 0 []), stoiM ((funcArgs func_def).getD 1 []) with
    | .ok mn, .ok mx => .ok (.RandomIntRule mn mx)
    | _, _ => .ok (.StaticTextRule "")
  else if funcName func_def = "HASH".data ∧ (funcArgs func_def).length = 1 then
    .ok (.HashRule (saltOf ((funcArgs func_def).getD 0 [])))
  else if funcName func_def = "PICK".data then
    .ok (.PickRule ((funcArgs func_def).map String.mk))
  else if h : funcName func_def = "REGEX".data ∧ 2 ≤ (funcArgs func_def).length then
    match hm : funcArgs func_def with
    | a0 :: a1 :: _ =>
      match parseChunks env a1 with
      | .error e => .error e
      | .ok repl =>
        if env.compileOk (String.mk a0) then
          .ok (.RegexRule (String.mk a0) (.CompositeRule repl))
        else
          .error (String.mk a0)
    | _ => .ok (.StaticTextRule "")
  else if funcName func_def = "LITERAL".data ∧ funcArgs func_def ≠ [] then
    .ok (.StaticTextRule (String.mk ((funcArgs func_def).getD 0 [])))
  else if funcName func_def = "MATCHES".data ∧ (funcArgs func_def).length = 2 then
    if env.compileOk (String.mk ((funcArgs func_def).getD 1 [])) then
      .ok (.MatchesRule (String.mk ((funcArgs func_def).getD 0 []))
        (String.mk ((funcArgs func_def).getD 1 [])))
    else
      .ok (.StaticTextRule "")
  else if h : funcName func_def = "IF".data ∧ (funcArgs func_def).length = 5 then
    match hm : funcArgs func_def with
    | [a0, a1, a2, a3, a4] =>
      match parseChunks env a0 with
      | .error e => .error e
      | .ok condR =>
        match parseChunks env a3 with
        | .error e => .error e
        | .ok tR =>
          match parseChunks env a4 with
          | .error e => .error e
          | .ok fR =>
            .ok (.ConditionalRule (.CompositeRule condR) (String.mk a1) (String.mk a2)
              (.CompositeRule tR) (.CompositeRule fR))
    | _ => .ok (.StaticTextRule "")
  else
    .ok (.StaticTextRule "")
termination_by func_def.length
decreasing_by
  · have hne : funcName func_def ≠ [] := by rw [h.1]; decide
    exact length_lt_of_mem_funcArgs hne (by rw [hm]; simp)
  · have hne : funcName func_def ≠ [] := by rw [h.1]; decide
    exact length_lt_of_mem_funcArgs hne (by rw [hm]; simp)
  · have hne : funcName func_def ≠ [] := by rw [h.1]; decide
    exact length_lt_of_mem_funcArgs hne (by rw [hm]; simp)
  · have hne : funcName func_def ≠ [] := by rw [h.1]; decide
    exact length_lt_of_mem_funcArgs hne (by rw [hm]; simp)

/-- The scanning loop of `RuleFactory::parse_template`, producing the child
list of the resulting `CompositeRule`.  Literal text before a tag is added
when non-empty; a closed tag contributes `create_func_rule` of its content
with the character just before the closing position dropped
(`substr(start_content, j - 1 - start_content)`); an unterminated tag stops
the scan (`break`), after which the trailing-text step appends
`substr(last_pos)` — the whole remaining input, including the text already
captured before the unterminated tag. -/
def parseChunks (env : Env) (s : List Char) : Except String (List Rule) :=
  match h1 : splitTag s with
  | none => .ok (if s = [] then [] else [.StaticTextRule (String.mk s)])
  | some (pre, rest) =>
    match h2 : scanClose rest 2 with
    | none =>
      .ok ((if pre = [] then [] else [.StaticTextRule (String.mk pre)]) ++
        [.StaticTextRule (String.mk s)])
    | some (content, after) =>
      match createFuncRule env content.dropLast with
      | .error e => .error e
      | .ok r =>
        match parseChunks env after with
        | .error e => .error e
        | .ok rs =>
          .ok ((if pre = [] then [] else [.StaticTextRule (String.mk pre)]) ++ r :: rs)
termination_by s.length
decreasing_by
  · have e1 := splitTag_length h1
    have e2 := scanClose_length h2
    have e3 : content.dropLast.length = content.length - 1 := by simp
    omega
  · have e1 := splitTag_length h1
    have e2 := scanClose_length h2
    omega

end

/-- `RuleFactory::parse_template`: the composite of the scanned chunks
(an exception escaping the scan propagates to the caller). -/
def parse_template (env : Env) (raw_template : String) : Except String Rule :=
  match parseChunks env raw_template.data with
  | .ok rules => .ok (.CompositeRule rules)
  | .error e => .error e

/-! ## DataProcessor: the dump stream transducer -/

/-- Per-table rule map `column -> Rule` (a `std::map` modelled as an
association list with unique keys; lookup takes the first binding). -/
abbrev TableRules := List (String × Rule)

/-- `ReplacementRules`: `qualified table name -> (column -> Rule)`. -/
abbrev ReplacementRules := List (String × TableRules)

/-- `std::map` lookup (`count` + `at`). -/
def lookupAssoc {α : Type} : List (String × α) → String → Option α
  | [], _ => none
  | (k, v) :: rest, key => if k = key then some v else lookupAssoc rest key

/-- `DataProcessor::ParserState`. -/
inductive ParserState
  | SearchingForCopy
  | ReadingData

/-- The loop-carried state of `process_dump`: parser state, `current_table`
and the current column list. -/
structure DumpState where
  state : ParserState
  current_table : String
  columns : List String

/-- `DataProcessor::parse_copy_columns`: take the text between the first
`(` and the last `)` (requiring the latter to exist strictly later), strip
all spaces and double quotes, split on commas with `getline`, and keep the
non-empty pieces.  On malformed input the column list is left empty. -/
def parse_copy_columns (raw_columns : String) : List String :=
  let s := raw_columns.data
  match firstIdx (fun c => c == '(') s with
  | none => []
  | some start =>
    match findLastIdx s ')' with
    | none => []
    | some stop =>
      if stop ≤ start then []
      else
        let columns_str := (s.drop (start + 1)).take (stop - start - 1)
        let cleaned := columns_str.filter fun c => !(c == ' ' || c == '"')
        (splitGetline ',' cleaned).filter fun col => col ≠ ""

/-- The per-cell transformation of the data-row loop in `process_dump`: a
rule is applied only when the index has a known column name and that name
has a catalog entry; otherwise the cell passes through. -/
def cellTransform (env : Env) (table_rules : TableRules) (columns : List String)
    (ctx : RowContext) (i : Nat) (val : String) : String :=
  if i < columns.length then
    match lookupAssoc table_rules (columns.getD i "") with
    | some rule => applyRule env rule val ctx
    | none => val
  else val

/-- The data-row loop of `process_dump` over the mutable
`working_row_values`: at index `i` the working value (still the original
cell, since earlier iterations only wrote indices below `i`) is transformed
and written back; the loop advances until the end of the row. -/
def rowLoop (env : Env) (table_rules : TableRules) (columns : List String)
    (ctx : RowContext) (working : List String) (i : Nat) : List String :=
  if i < working.length then
    let val := working.getD i ""
    let val2 := cellTransform env table_rules columns ctx i val
    rowLoop env table_rules columns ctx (working.set i val2) (i + 1)
  else working
termination_by working.length - i
decreasing_by
  simp only [List.length_set]
  omega

/-- The data-row branch of `process_dump`: split the line on tabs into the
original row values, build the `RowContext` from the columns and the
ORIGINAL values only, run the loop, and emit the working values joined with
tabs (the C++ accumulates `processed_line` from each loop iteration's `val`,
which is exactly the final working value at that index). -/
def processDataRow (env : Env) (table_rules : TableRules) (columns : List String)
    (line : String) : String :=
  let original_row_values := splitGetline '\t' line.data
  let ctx : RowContext := ⟨columns, original_row_values⟩
  String.intercalate "\t" (rowLoop env table_rules columns ctx original_row_values 0)

/-- One iteration of the `while (getline)` loop of `process_dump`: consumes
one input line, emits exactly one output line, and updates the state. -/
def stepLine (env : Env) (replacement_rules : ReplacementRules) (st : DumpState)
    (line : String) : DumpState × String :=
  match st.state with
  | .SearchingForCopy =>
    match env.copyMatch line with
    | some (table, raw_cols) =>
      let columns :=
        match raw_cols with
        | some rc => parse_copy_columns rc
        | none => []
      (⟨.ReadingData, table, columns⟩, line)
    | none => (st, line)
  | .ReadingData =>
    if env.endMatch line then
      (⟨.SearchingForCopy, st.current_table, []⟩, line)
    else
      match lookupAssoc replacement_rules st.current_table with
      | some table_rules =>
        if st.columns ≠ [] then
          (st, processDataRow env table_rules st.columns line)
        else (st, line)
      | none => (st, line)

/-- The full `while (getline)` loop of `process_dump` over a list of input
lines, starting from a given state. -/
def processLines (env : Env) (replacement_rules : ReplacementRules) :
    DumpState → List String → List String
  | _, [] => []
  | st, line :: rest =>
    let (st2, out) := stepLine env replacement_rules st line
    out :: processLines env replacement_rules st2 rest

/-- `DataProcessor::process_dump` on an already-opened stream: the loop
starts in `SearchingForCopy` with empty table name and column list. -/
def process_dump (env : Env) (replacement_rules : ReplacementRules)
    (lines : List String) : List String :=
  processLines env replacement_rules ⟨.SearchingForCopy, "", []⟩ lines

/-- A concrete instantiation of the external environment, used to evaluate
the model on closed inputs: regex compilation fails exactly on the single
pattern "[", matching is string equality, replacement prepends the
replacement text, and the random draws are the least allowed values. -/
def env0 : Env where
  compileOk := fun p => !(p == "[")
  rmatch := fun v p => v == p
  rreplace := fun v _ fmt => fmt ++ v
  randInt := fun mn _ => mn
  pickIdx := fun _ => 0
  copyMatch := fun _ => none
  endMatch := fun l => l == "\\."

/-- Reference digest definition following the specification's wording for
the Hash rule: a 32-bit FNV-1a accumulator (offset basis 2166136261,
xor-then-multiply by 16777619, arithmetic mod 2^32) fed first the bytes of
the salt's decimal representation and then the bytes of the input value,
finally masked with 0x7FFFFFFF.  Stated independently of `hashDigest` so the
implementation can be compared against it. -/
def fnv1aBytes : Nat → List Nat → Nat
  | h, [] => h
  | h, b :: bs => fnv1aBytes (((h ^^^ b) * 16777619) % 2 ^ 32) bs

/-- The specification-side digest of C5 (see `fnv1aBytes`). -/
def hashSpecRef (salt : Nat) (value : String) : Nat :=
  fnv1aBytes 2166136261 (strBytes (toString salt) ++ strBytes value) &&& 0x7FFFFFFF

/-- The final working-value list a data row is rewritten to by the data-row
branch of `process_dump` (the list whose tab-join `processDataRow` emits). -/
def transformedCells (env : Env) (table_rules : TableRules) (columns : List String)
    (line : String) : List String :=
  rowLoop env table_rules columns ⟨columns, splitGetline '\t' line.data⟩
    (splitGetline '\t' line.data) 0

/-! ## Supporting lemmas -/

theorem fnv1aBytes_append (xs ys : List Nat) :
    ∀ h : Nat, fnv1aBytes h (xs ++ ys) = fnv1aBytes (fnv1aBytes h xs) ys := by
  induction xs with
  | nil => intro h; rfl
  | cons b bs ih => intro h; simp only [List.cons_append, fnv1aBytes]; exact ih _

theorem fnvMix_eq_fnv1aBytes (bs : List Nat) :
    ∀ h : Nat, fnvMix h bs = fnv1aBytes h bs := by
  induction bs with
  | nil => intro h; rfl
  | cons b rest ih =>
    intro h
    rw [fnvMix, List.foldl_cons, fnv1aBytes, ← ih]
    norm_num [fnvMix]

theorem processLines_length (env : Env) (replacement_rules : ReplacementRules) :
    ∀ (lines : List String) (st : DumpState),
      (processLines env replacement_rules st lines).length = lines.length := by
  intro lines
  induction lines with
  | nil => intro st; rfl
  | cons l rest ih =>
    intro st
    rw [processLines]
    simp only [List.length_cons]
    rw [ih]

theorem rowLoop_getElem? (env : Env) (table_rules : TableRules) (columns : List String)
    (ctx : RowContext) :
    ∀ (n : Nat) (working : List String) (i : Nat), working.length - i ≤ n →
      ∀ k, (rowLoop env table_rules columns ctx working i)[k]? =
        if k < i ∨ working.length ≤ k then working[k]?
        else some (cellTransform env table_rules columns ctx k (working.getD k "")) := by
  intro n
  induction n with
  | zero =>
    intro working i hn k
    rw [rowLoop, if_neg (by omega)]
    rw [if_pos (by omega : k < i ∨ working.length ≤ k)]
  | succ n ih =>
    intro working i hn k
    rw [rowLoop]
    by_cases hlt : i < working.length
    · rw [if_pos hlt]
      rw [ih (working.set i (cellTransform env table_rules columns ctx i (working.getD i "")))
        (i + 1) (by simp only [List.length_set]; omega) k]
      by_cases hk1 : k < i
      · rw [if_pos (Or.inl (by omega)), if_pos (Or.inl hk1)]
        exact List.getElem?_set_ne (by omega)
      · by_cases hk2 : k = i
        · subst hk2
          rw [if_pos (Or.inl (by omega))]
          rw [if_neg (by omega)]
          rw [List.getElem?_set_self hlt]
        · by_cases hk3 : working.length ≤ k
          · rw [if_pos (Or.inr (by simpa using hk3)), if_pos (Or.inr hk3)]
            exact List.getElem?_set_ne (by omega)
          · rw [if_neg (by simp only [List.length_set]; omega), if_neg (by omega)]
            have : (working.set i
                (cellTransform env table_rules columns ctx i (working.getD i ""))).getD k "" =
                working.getD k "" := by
              rw [List.getD_eq_getElem?_getD, List.getElem?_set_ne (by omega),
                ← List.getD_eq_getElem?_getD]
            rw [this]
    · rw [if_neg hlt]
      rw [if_pos (by omega : k < i ∨ working.length ≤ k)]

theorem rowLoop_length (env : Env) (table_rules : TableRules) (columns : List String)
    (ctx : RowContext) :
    ∀ (n : Nat) (working : List String) (i : Nat), working.length - i ≤ n →
      (rowLoop env table_rules columns ctx working i).length = working.length := by
  intro n
  induction n with
  | zero =>
    intro working i hn
    rw [rowLoop, if_neg (by omega)]
  | succ n ih =>
    intro working i hn
    rw [rowLoop]
    by_cases hlt : i < working.length
    · rw [if_pos hlt]
      rw [ih _ (i + 1) (by simp only [List.length_set]; omega)]
      simp
    · rw [if_neg hlt]

theorem firstIdx_eq_none {α : Type} {p : α → Bool} :
    ∀ {l : List α}, (∀ x ∈ l, ¬ p x) → firstIdx p l = none := by
  intro l
  induction l with
  | nil => intro _; rfl
  | cons c cs ih =>
    intro h
    rw [firstIdx]
    rw [if_neg (by simpa using h c (by simp))]
    rw [ih fun x hx => h x (by simp [hx])]
    rfl

theorem firstIdx_first {α : Type} {p : α → Bool} (d : α) :
    ∀ {l : List α} {i : Nat}, i < l.length → p (l.getD i d) →
      (∀ j, j < i → ¬ p (l.getD j d)) → firstIdx p l = some i := by
  intro l
  induction l with
  | nil => intro i hi; simp at hi
  | cons c cs ih =>
    intro i hi hp hfirst
    rw [firstIdx]
    cases i with
    | zero =>
      rw [if_pos (by simpa using hp)]
    | succ i2 =>
      rw [if_neg (by simpa using hfirst 0 (by omega))]
      rw [ih (by simpa using hi) (by simpa using hp)
        (fun j hj => by simpa using hfirst (j + 1) (by omega))]
      rfl

/-- Helper: when no dispatch arm of `create_func_rule` fires, the result is
the fall-through empty literal. -/
theorem createFuncRule_fallback (env : Env) (d : List Char)
    (hN : ¬ (funcName d = "NONE".data))
    (hR : ¬ (funcName d = "RAND".data ∧ (funcArgs d).length = 2))
    (hH : ¬ (funcName d = "HASH".data ∧ (funcArgs d).length = 1))
    (hP : ¬ (funcName d = "PICK".data))
    (hX : ¬ (funcName d = "REGEX".data ∧ 2 ≤ (funcArgs d).length))
    (hL : ¬ (funcName d = "LITERAL".data ∧ funcArgs d ≠ []))
    (hM : ¬ (funcName d = "MATCHES".data ∧ (funcArgs d).length = 2))
    (hI : ¬ (funcName d = "IF".data ∧ (funcArgs d).length = 5)) :
    createFuncRule env d = .ok (.StaticTextRule "") := by
  rw [createFuncRule, if_neg hN, if_neg hR, if_neg hH, if_neg hP, dif_neg hX, if_neg hL,
    if_neg hM, dif_neg hI]

/-! ## Claims -/

/-- C1: the claim says template parsing never raises and that a malformed
regex pattern in a REGEX or MATCHES tag degrades to an empty Literal.  The
code contradicts this for REGEX: the `std::regex` constructed inside
`RegexRule` has no surrounding try/catch (unlike the MATCHES arm), so a
pattern that fails to compile — here the lone "[" — propagates an exception
out of `parse_template`. -/
theorem C1_regex_compile_error_escapes (env : Env) (h : env.compileOk "[" = false) :
    parse_template env "\x7b\x7bREGEX([,x)\x7d\x7d" = .error "[" := by
  simp +decide [parse_template, parseChunks, splitTag, scanClose, createFuncRule, funcName,
    funcArgs, extractNameArgsStr, firstIdx, findLastIdx, smartSplitArgs, smartSplitAux,
    trimChars, isCppSpace, h]

/-- C1 witness: the escape happens at the concrete environment whose regex
compiler rejects "[". -/
theorem C1_regex_compile_error_escapes_witness :
    parse_template env0 "\x7b\x7bREGEX([,x)\x7d\x7d" = .error "[" :=
  C1_regex_compile_error_escapes env0 (by decide)

/-- C2: the claim says `parse "A\x7b\x7bB"` evaluates to exactly
`"A\x7b\x7bB"` with the consumed text preserved exactly once.  The code
instead produces the prefix twice: the pre-tag literal "A" is captured, but
on the unterminated tag `last_pos` is never advanced, so the trailing-text
step re-emits the whole input; evaluation yields "AA\x7b\x7bB" for every
value and row context. -/
theorem C2_unterminated_tag_duplicates_prefix (env : Env) (value : String)
    (ctx : RowContext) :
    parse_template env "A\x7b\x7bB" =
      .ok (.CompositeRule [.StaticTextRule "A", .StaticTextRule "A\x7b\x7bB"]) ∧
    applyRule env (.CompositeRule [.StaticTextRule "A", .StaticTextRule "A\x7b\x7bB"])
      value ctx = "AA\x7b\x7bB" ∧
    ("AA\x7b\x7bB" : String) ≠ "A\x7b\x7bB" := by
  refine ⟨?_, rfl, by decide⟩
  simp +decide [parse_template, parseChunks, splitTag, scanClose]

/-- C3: row isolation.  The cell a data row's loop produces at column `j`
depends only on the rule bound to column `j`'s name — changing the rules
(and hence the working values) of every other column leaves it unchanged,
because every evaluation receives the `RowContext` built from the original
cells.  In particular a Matches node ignores the working value entirely and
full-matches its pattern against the original value of the target column,
returning "true" or "false". -/
theorem C3_row_isolation (env : Env) (R1 R2 : TableRules) (columns cells : List String)
    (j : Nat) (hj : j < columns.length)
    (hsame : lookupAssoc R1 (columns.getD j "") = lookupAssoc R2 (columns.getD j ""))
    (col pat v v2 : String) (ctx : RowContext) :
    (rowLoop env R1 columns ⟨columns, cells⟩ cells 0)[j]? =
      (rowLoop env R2 columns ⟨columns, cells⟩ cells 0)[j]? ∧
    applyRule env (.MatchesRule col pat) v ctx =
      applyRule env (.MatchesRule col pat) v2 ctx ∧
    applyRule env (.MatchesRule col pat) v ctx =
      (if env.rmatch (ctx.get_column_value col) pat then "true" else "false") := by
  refine ⟨?_, rfl, rfl⟩
  rw [rowLoop_getElem? env R1 columns ⟨columns, cells⟩ cells.length cells 0 (by omega) j,
    rowLoop_getElem? env R2 columns ⟨columns, cells⟩ cells.length cells 0 (by omega) j]
  by_cases hjc : j < cells.length
  · rw [if_neg (by omega), if_neg (by omega)]
    simp only [cellTransform]
    rw [if_pos hj, if_pos hj, hsame]
  · rw [if_pos (by omega), if_pos (by omega)]

/-- C3 witness: with the rule on the earlier column "x" changed from
Literal "A" to Literal "B" (changing its working value), the Matches cell at
column "y" is unchanged. -/
theorem C3_row_isolation_witness :
    (rowLoop env0 [("x", .StaticTextRule "A"), ("y", .MatchesRule "x" "1")] ["x", "y"]
        ⟨["x", "y"], ["1", "2"]⟩ ["1", "2"] 0)[1]? =
      (rowLoop env0 [("x", .StaticTextRule "B"), ("y", .MatchesRule "x" "1")] ["x", "y"]
        ⟨["x", "y"], ["1", "2"]⟩ ["1", "2"] 0)[1]? :=
  (C3_row_isolation env0 [("x", .StaticTextRule "A"), ("y", .MatchesRule "x" "1")]
    [("x", .StaticTextRule "B"), ("y", .MatchesRule "x" "1")] ["x", "y"] ["1", "2"] 1
    (by decide) rfl "x" "1" "u" "w" ⟨["x", "y"], ["1", "2"]⟩).1

/-- C4: line-count preservation.  `process_dump` emits exactly one output
line per input line, in order, for every input, every rule catalog, and from
every parser state. -/
theorem C4_one_output_line_per_input_line (env : Env)
    (replacement_rules : ReplacementRules) (lines : List String) :
    (process_dump env replacement_rules lines).length = lines.length ∧
    ∀ st : DumpState,
      (processLines env replacement_rules st lines).length = lines.length :=
  ⟨processLines_length env replacement_rules lines _,
    fun st => processLines_length env replacement_rules lines st⟩

/-- C5: the Hash rule's output is the decimal rendering of the reference
FNV-1a digest of the claim (offset basis 2166136261, xor-then-multiply by
16777619 mod 2^32, over the salt's decimal representation's bytes then the
value's bytes, masked with 0x7FFFFFFF), and is independent of the
environment and row context, hence deterministic for a (salt, value) pair. -/
theorem C5_hash_reference_and_determinism (env env2 : Env) (salt : Nat)
    (value : String) (ctx ctx2 : RowContext) :
    applyRule env (.HashRule salt) value ctx = toString (hashSpecRef salt value) ∧
    applyRule env (.HashRule salt) value ctx = applyRule env2 (.HashRule salt) value ctx2 := by
  constructor
  · show hashDigest salt value = _
    simp only [hashDigest, hashSpecRef, fnvMix_eq_fnv1aBytes, fnv1aBytes_append]
  · rfl

/-- C6 counterexample: the claim says a NONE tag with one or more arguments
degrades to an empty Literal.  The code's NONE arm checks only the name, so
`NONE(x)` yields the identity rule, whose evaluation returns the input
value, not the empty string. -/
theorem C6_none_with_args_counterexample :
    createFuncRule env0 "NONE(x)".data = .ok .NoneRule ∧
    applyRule env0 .NoneRule "v" ⟨[], []⟩ = "v" ∧ ("v" : String) ≠ "" := by
  refine ⟨?_, rfl, by decide⟩
  simp +decide [createFuncRule, funcName, funcArgs, extractNameArgsStr, firstIdx, findLastIdx,
    smartSplitArgs, smartSplitAux, trimChars, isCppSpace]

/-- C6 (amended): an unknown verb (case-sensitively outside the fixed verb
set), or a wrong split-argument count for RAND (≠ 2), HASH (≠ 1), REGEX
(< 2), MATCHES (≠ 2) or IF (≠ 5), produces the empty Literal fall-through
and never raises; NONE ignores its arguments (identity rule) and LITERAL
takes the first split argument (the split list is never empty). -/
theorem C6_unknown_verb_or_wrong_arity_degrades (env : Env) (func_def : List Char)
    (h : funcName func_def ∉ ["NONE".data, "RAND".data, "HASH".data, "PICK".data,
          "REGEX".data, "LITERAL".data, "MATCHES".data, "IF".data] ∨
       (funcName func_def = "RAND".data ∧ (funcArgs func_def).length ≠ 2) ∨
       (funcName func_def = "HASH".data ∧ (funcArgs func_def).length ≠ 1) ∨
       (funcName func_def = "REGEX".data ∧ (funcArgs func_def).length < 2) ∨
       (funcName func_def = "MATCHES".data ∧ (funcArgs func_def).length ≠ 2) ∨
       (funcName func_def = "IF".data ∧ (funcArgs func_def).length ≠ 5)) :
    createFuncRule env func_def = .ok (.StaticTextRule "") := by
  rcases h with h | h | h | h | h | h <;>
    refine createFuncRule_fallback env func_def ?_ ?_ ?_ ?_ ?_ ?_ ?_ ?_ <;>
      first
      | (intro hc; exact h (by simp [hc]))
      | (intro hc; exact h (by simp [hc.1]))
      | (intro hc; rw [h.1] at hc; exact absurd hc (by decide))
      | (intro hc; rw [h.1] at hc; exact absurd hc.1 (by decide))
      | (intro hc; exact h.2 hc.2)
      | (intro hc; exact absurd hc.2 (by omega))

/-- C6 witness: the unknown verb FOO degrades to the empty Literal. -/
theorem C6_unknown_verb_witness :
    createFuncRule env0 "FOO(x)".data = .ok (.StaticTextRule "") :=
  C6_unknown_verb_or_wrong_arity_degrades env0 "FOO(x)".data (Or.inl (by decide))

/-- C7: row-shape tolerance.  The emitted line is the tab-join of the
transformed cells; the cell count is preserved; a cell passes through
unchanged whenever its index has no known column name or its column has no
catalog entry (in particular every cell beyond the known column count); and
a rule is applied exactly at the indices having both, on the original cell
value with the row context built from the original cells. -/
theorem C7_row_shape_tolerance (env : Env) (table_rules : TableRules)
    (columns : List String) (line : String) :
    processDataRow env table_rules columns line =
      String.intercalate "\t" (transformedCells env table_rules columns line) ∧
    (transformedCells env table_rules columns line).length =
      (splitGetline '\t' line.data).length ∧
    (∀ i, columns.length ≤ i ∨ lookupAssoc table_rules (columns.getD i "") = none →
      (transformedCells env table_rules columns line)[i]? =
        (splitGetline '\t' line.data)[i]?) ∧
    (∀ i rule, i < (splitGetline '\t' line.data).length → i < columns.length →
      lookupAssoc table_rules (columns.getD i "") = some rule →
      (transformedCells env table_rules columns line)[i]? =
        some (applyRule env rule ((splitGetline '\t' line.data).getD i "")
          ⟨columns, splitGetline '\t' line.data⟩)) := by
  refine ⟨rfl, ?_, ?_, ?_⟩
  · exact rowLoop_length env table_rules columns _ (splitGetline '\t' line.data).length _ 0
      (by omega)
  · intro i hi
    rw [transformedCells, rowLoop_getElem? env table_rules columns _
      (splitGetline '\t' line.data).length _ 0 (by omega) i]
    by_cases hlen : i < (splitGetline '\t' line.data).length
    · rw [if_neg (by omega)]
      simp only [cellTransform]
      rcases hi with hi | hi
      · rw [if_neg (by omega)]
        rw [List.getD_eq_getElem?_getD, List.getElem?_eq_getElem hlen]
        rfl
      · by_cases hcol : i < columns.length
        · rw [if_pos hcol, hi]
          rw [List.getD_eq_getElem?_getD, List.getElem?_eq_getElem hlen]
          rfl
        · rw [if_neg hcol]
          rw [List.getD_eq_getElem?_getD, List.getElem?_eq_getElem hlen]
          rfl
    · rw [if_pos (by omega)]
  · intro i rule hlen hcol hlook
    rw [transformedCells, rowLoop_getElem? env table_rules columns _
      (splitGetline '\t' line.data).length _ 0 (by omega) i]
    rw [if_neg (by omega)]
    simp only [cellTransform]
    rw [if_pos hcol, hlook]

/-- C7 witness: with one known column "a" carrying a rule, the second cell
of the row "x⟨tab⟩y" lies beyond the known column count and passes through. -/
theorem C7_row_shape_tolerance_witness :
    (transformedCells env0 [("a", .StaticTextRule "R")] ["a"] "x\ty")[1]? =
      (splitGetline '\t' "x\ty".data)[1]? :=
  (C7_row_shape_tolerance env0 [("a", .StaticTextRule "R")] ["a"] "x\ty").2.2.1 1
    (Or.inl (by decide))

/-- C8: nesting round-trip.  Parsing the REGEX tag whose second argument is
itself a tag produces a RegexRule with pattern "a" whose replacement subtree
evaluates to "b" for every environment, value and row context: the
depth-counting scan crosses the nested tag and the argument splitter does
not split inside balanced braces. -/
theorem C8_nested_tag_roundtrip (env : Env) (h : env.compileOk "a" = true) :
    parse_template env "\x7b\x7bREGEX(a,\x7b\x7bLITERAL(b)\x7d\x7d)\x7d\x7d" =
      .ok (.CompositeRule [.RegexRule "a" (.CompositeRule [.StaticTextRule "b"])]) ∧
    ∀ (env2 : Env) (value : String) (ctx : RowContext),
      applyRule env2 (.CompositeRule [.StaticTextRule "b"]) value ctx = "b" := by
  refine ⟨?_, fun env2 value ctx => rfl⟩
  simp +decide [parse_template, parseChunks, splitTag, scanClose, createFuncRule, funcName,
    funcArgs, extractNameArgsStr, firstIdx, findLastIdx, smartSplitArgs, smartSplitAux,
    trimChars, isCppSpace, h]

/-- C8 witness: the round-trip at the concrete environment (whose compiler
accepts "a"). -/
theorem C8_nested_tag_roundtrip_witness :
    parse_template env0 "\x7b\x7bREGEX(a,\x7b\x7bLITERAL(b)\x7d\x7d)\x7d\x7d" =
      .ok (.CompositeRule [.RegexRule "a" (.CompositeRule [.StaticTextRule "b"])]) :=
  (C8_nested_tag_roundtrip env0 (by decide)).1

/-- C9: the claim says every RandomInt node built by the parser satisfies
min ≤ max.  The RAND arm of `create_func_rule` performs no such validation:
the tag RAND(5, 1) parses to a RandomIntRule with min = 5 > max = 1 (whose
evaluation then violates the precondition of
`uniform_int_distribution<int>(5, 1)` — undefined behavior). -/
theorem C9_rand_range_not_validated (env : Env) :
    parse_template env "\x7b\x7bRAND(5, 1)\x7d\x7d" =
      .ok (.CompositeRule [.RandomIntRule 5 1]) ∧ ¬ ((5 : Int) ≤ 1) := by
  refine ⟨?_, by decide⟩
  simp +decide [parse_template, parseChunks, splitTag, scanClose, createFuncRule, funcName,
    funcArgs, extractNameArgsStr, firstIdx, findLastIdx, smartSplitArgs, smartSplitAux,
    trimChars, isCppSpace, stoiM]

/-- C10: `RowContext::get_column_value` is total under header/row length
mismatch: it returns the empty string when the name is absent from the
headers, and otherwise returns the cell at the first matching header index
when that index is within the row values, the empty string when it is out
of range. -/
theorem C10_get_column_value_totality (headers row_values : List String) (name : String) :
    ((∀ x ∈ headers, x ≠ name) →
      RowContext.get_column_value ⟨headers, row_values⟩ name = "") ∧
    ∀ i, i < headers.length → headers.getD i "" = name →
      (∀ j, j < i → headers.getD j "" ≠ name) →
      RowContext.get_column_value ⟨headers, row_values⟩ name =
        if i < row_values.length then row_values.getD i "" else "" := by
  constructor
  · intro habs
    rw [RowContext.get_column_value]
    rw [firstIdx_eq_none (p := fun x => x == name) (fun x hx => by simpa using habs x hx)]
  · intro i hi hp hfirst
    rw [RowContext.get_column_value]
    rw [firstIdx_first "" hi (by simpa using hp) (fun j hj => by simpa using hfirst j hj)]
    by_cases hv : i < row_values.length
    · rw [if_pos hv]
      simp [List.getElem?_eq_getElem hv, List.getD_eq_getElem?_getD]
    · rw [if_neg hv]
      have hnone : row_values[i]? = none := List.getElem?_eq_none_iff.mpr (by omega)
      simp [hnone]

/-- C10 witness: the row has fewer cells than headers; looking up the second
header returns the empty string rather than erring. -/
theorem C10_get_column_value_totality_witness :
    RowContext.get_column_value ⟨["a", "b"], ["x"]⟩ "b" = "" := by
  have h := (C10_get_column_value_totality ["a", "b"] ["x"] "b").2 1 (by decide) (by decide)
    (fun j hj => by
      have hj0 : j = 0 := by omega
      subst hj0
      decide)
  simpa using h

end PgAnonymous
